import Mathlib

/- Verification of the PolymarketAnalyzer scripts: a shallow embedding of the
trade-fetching loops and the profit-and-loss leaderboard aggregators, with
proofs of the properties stated in the design document.

Money and share quantities are modelled exactly with rationals (the design
document states its arithmetic properties up to floating-point tolerance).
The HTTP APIs are modelled as functions from a request offset to an optional
page (`none` models a non-success HTTP status); the unbounded `while` loops
are modelled with a fuel parameter, and each fetch model additionally returns
the list of offsets at which it issued page requests, so that statements
about "which requests were made" can be expressed. -/

namespace PM

/-- A trade record as returned by the data API.  `transactionHash` is
`Option String` because the scripts access it with `trade.get(...)`, which
yields `None` when the key is absent; the empty string models a present but
falsy value. -/
structure Trade where
  transactionHash : Option String
  proxyWallet : String
  side : String
  outcome : String
  size : ℚ
  price : ℚ
  timestamp : Int
  name : Option String
  pseudonym : Option String
deriving DecidableEq

/-- A trade value used to pad concrete test pages; its hash is absent. -/
def defaultTrade : Trade :=
  { transactionHash := none, proxyWallet := "", side := "", outcome := "",
    size := 0, price := 0, timestamp := 0, name := none, pseudonym := none }

/-- One pass of the duplicate filter that every REST fetcher applies to a
page: keep a trade when its hash is present, truthy (non-empty) and not in
the seen set; record kept hashes.  Returns the kept trades in page order and
the grown seen set. -/
def dedupPage (seen : List String) : List Trade → List Trade × List String
  | [] => ([], seen)
  | t :: ts =>
    match t.transactionHash with
    | some h =>
      if h ≠ "" ∧ h ∉ seen then
        let r := dedupPage (h :: seen) ts
        (t :: r.1, r.2)
      else
        dedupPage seen ts
    | none => dedupPage seen ts

/-- The running per-trader position maintained by the leaderboard loops:
two signed share counters and two cash counters. -/
structure Position where
  yes_shares : ℚ
  no_shares : ℚ
  total_spent : ℚ
  total_received : ℚ
deriving DecidableEq

/-- The empty starting position. -/
def Position.init : Position := ⟨0, 0, 0, 0⟩

/-- Processing one trade: BUY adds `size*price` to `total_spent` and `size`
to the bought outcome's share counter; SELL adds `size*price` to
`total_received` and subtracts `size` from the sold outcome's counter.
Mirrors the `if side == 'BUY' ... else ...` body shared by the scripts. -/
def stepTrade (p : Position) (t : Trade) : Position :=
  if t.side = "BUY" then
    if t.outcome = "Yes" then
      { p with total_spent := p.total_spent + t.size * t.price,
               yes_shares := p.yes_shares + t.size }
    else
      { p with total_spent := p.total_spent + t.size * t.price,
               no_shares := p.no_shares + t.size }
  else
    if t.outcome = "Yes" then
      { p with total_received := p.total_received + t.size * t.price,
               yes_shares := p.yes_shares - t.size }
    else
      { p with total_received := p.total_received + t.size * t.price,
               no_shares := p.no_shares - t.size }

/-- The position after a whole per-wallet trade sequence. -/
def positionOf (ts : List Trade) : Position := ts.foldl stepTrade Position.init

/-- The winning-outcome share counter chosen by the resolution string. -/
def sharesInWinning (resolves_to : String) (p : Position) : ℚ :=
  if resolves_to = "Yes" then p.yes_shares else p.no_shares

/-- The profit/loss figure each script computes:
`final position value - total_spent + total_received`. -/
def pnlOf (resolves_to : String) (p : Position) : ℚ :=
  sharesInWinning resolves_to p - p.total_spent + p.total_received

/-- The distinct wallets of a trade list in first-encounter order; this is
the iteration order of the Python `defaultdict` the scripts group with. -/
def wallets (trades : List Trade) : List String :=
  trades.foldl (fun ws t => if t.proxyWallet ∈ ws then ws else ws ++ [t.proxyWallet]) []

/-- A wallet's trades in input order (the group the `defaultdict` builds). -/
def tradesOf (trades : List Trade) (w : String) : List Trade :=
  trades.filter (fun t => t.proxyWallet = w)

/-- Insert into a list sorted descending by `key`, before the first element
of strictly smaller or equal key; used to model Python's stable
`sort(key=..., reverse=True)`. -/
def insertDesc {α : Type} (key : α → ℚ) (x : α) : List α → List α
  | [] => [x]
  | y :: ys => if key y ≤ key x then x :: y :: ys else y :: insertDesc key x ys

/-- Stable descending sort by `key` (insertion sort); equal keys keep their
input order, like Python's Timsort with `reverse=True`. -/
def sortDesc {α : Type} (key : α → ℚ) : List α → List α
  | [] => []
  | x :: xs => insertDesc key x (sortDesc key xs)

/-- Cash added to `total_spent` by one trade. -/
def spentDelta (t : Trade) : ℚ := if t.side = "BUY" then t.size * t.price else 0

/-- Cash added to `total_received` by one trade. -/
def receivedDelta (t : Trade) : ℚ := if t.side = "BUY" then 0 else t.size * t.price

/-- Signed change of the Yes-share counter caused by one trade. -/
def yesDelta (t : Trade) : ℚ :=
  if t.side = "BUY" then (if t.outcome = "Yes" then t.size else 0)
  else (if t.outcome = "Yes" then -t.size else 0)

/-- Signed change of the No-share counter caused by one trade. -/
def noDelta (t : Trade) : ℚ :=
  if t.side = "BUY" then (if t.outcome = "Yes" then 0 else t.size)
  else (if t.outcome = "Yes" then 0 else -t.size)

lemma stepTrade_total_spent (p : Position) (t : Trade) :
    (stepTrade p t).total_spent = p.total_spent + spentDelta t := by
  unfold stepTrade spentDelta
  split <;> split <;> simp

lemma stepTrade_total_received (p : Position) (t : Trade) :
    (stepTrade p t).total_received = p.total_received + receivedDelta t := by
  unfold stepTrade receivedDelta
  split <;> split <;> simp

lemma stepTrade_yes_shares (p : Position) (t : Trade) :
    (stepTrade p t).yes_shares = p.yes_shares + yesDelta t := by
  unfold stepTrade yesDelta
  split <;> split <;> simp [sub_eq_add_neg]

lemma stepTrade_no_shares (p : Position) (t : Trade) :
    (stepTrade p t).no_shares = p.no_shares + noDelta t := by
  unfold stepTrade noDelta
  split <;> split <;> simp [sub_eq_add_neg]

lemma foldl_total_spent (ts : List Trade) (p : Position) :
    (ts.foldl stepTrade p).total_spent = p.total_spent + (ts.map spentDelta).sum := by
  induction ts generalizing p with
  | nil => simp
  | cons t ts ih => simp [List.foldl_cons, ih, stepTrade_total_spent, add_assoc]

lemma foldl_total_received (ts : List Trade) (p : Position) :
    (ts.foldl stepTrade p).total_received = p.total_received + (ts.map receivedDelta).sum := by
  induction ts generalizing p with
  | nil => simp
  | cons t ts ih => simp [List.foldl_cons, ih, stepTrade_total_received, add_assoc]

lemma foldl_yes_shares (ts : List Trade) (p : Position) :
    (ts.foldl stepTrade p).yes_shares = p.yes_shares + (ts.map yesDelta).sum := by
  induction ts generalizing p with
  | nil => simp
  | cons t ts ih => simp [List.foldl_cons, ih, stepTrade_yes_shares, add_assoc]

lemma foldl_no_shares (ts : List Trade) (p : Position) :
    (ts.foldl stepTrade p).no_shares = p.no_shares + (ts.map noDelta).sum := by
  induction ts generalizing p with
  | nil => simp
  | cons t ts ih => simp [List.foldl_cons, ih, stepTrade_no_shares, add_assoc]

/-- The whole position is permutation-invariant: every counter is a plain
sum of per-trade contributions. -/
lemma positionOf_perm {ts ts' : List Trade} (h : ts.Perm ts') :
    positionOf ts = positionOf ts' := by
  have hs := (h.map spentDelta).sum_eq
  have hr := (h.map receivedDelta).sum_eq
  have hy := (h.map yesDelta).sum_eq
  have hn := (h.map noDelta).sum_eq
  unfold positionOf
  have e1 := foldl_total_spent ts Position.init
  have e2 := foldl_total_spent ts' Position.init
  have e3 := foldl_total_received ts Position.init
  have e4 := foldl_total_received ts' Position.init
  have e5 := foldl_yes_shares ts Position.init
  have e6 := foldl_yes_shares ts' Position.init
  have e7 := foldl_no_shares ts Position.init
  have e8 := foldl_no_shares ts' Position.init
  cases hA : ts.foldl stepTrade Position.init
  cases hB : ts'.foldl stepTrade Position.init
  simp_all

/-- A concrete trade whose hash encodes the number `k`, used to build
concrete API behaviours in closed theorems. -/
def freshTrade (k : Nat) : Trade := { defaultTrade with transactionHash := some (toString k) }

/-- A concrete full page of 500 records at offset `k`: 499 records with an
absent hash plus one record with the fresh hash `k`, so a fetcher with page
size 500 sees a full page that still contributes a new trade. -/
def fullFreshPage (k : Nat) : List Trade := List.replicate 499 defaultTrade ++ [freshTrade k]

end PM

namespace AnalyzeMarket

open PM

/-- The pagination loop of `scripts/analyze_market.py:fetch_all_trades`
(`while True`), instrumented: `fuel` bounds the number of iterations we
unfold, the first component is the returned trade list (`Except.error`
models the uncaught exception `raise_for_status` throws on a non-success
HTTP status), and the second component is the list of offsets at which page
requests were issued. -/
def fetchAllTradesLoop (api : Nat → Option (List Trade)) (limit : Nat) :
    Nat → List String → List Trade → Nat → Except Unit (List Trade) × List Nat
  | 0, _, acc, _ => (.ok acc, [])
  | fuel + 1, seen, acc, offset =>
    match api offset with
    | none => (.error (), [offset])
    | some trades =>
      if trades = [] then (.ok acc, [offset])
      else
        let nd := dedupPage seen trades
        if nd.1 = [] then (.ok acc, [offset])
        else
          let acc2 := acc ++ nd.1
          if trades.length < limit then (.ok acc2, [offset])
          else
            let r := fetchAllTradesLoop api limit fuel nd.2 acc2 (offset + limit)
            (r.1, offset :: r.2)

/-- `fetch_all_trades` of `scripts/analyze_market.py`: page size 500,
offset starts at 0, no offset ceiling. -/
def fetch_all_trades (api : Nat → Option (List Trade)) (fuel : Nat) :
    Except Unit (List Trade) × List Nat :=
  fetchAllTradesLoop api 500 fuel [] [] 0

end AnalyzeMarket

namespace AnalyzeBigTrades

open PM

/-- The pagination loop of `scripts/analyze_big_trades.py:fetch_big_trades`
and `scripts/fetch_with_filters.py:fetch_all_trades_core_api`
(`while offset < 10000`), instrumented like `fetchAllTradesLoop`; HTTP
errors propagate (`raise_for_status` is not wrapped in a handler). -/
def fetchCeilLoop (api : Nat → Option (List Trade)) (limit : Nat) :
    Nat → List String → List Trade → Nat → Except Unit (List Trade) × List Nat
  | 0, _, acc, _ => (.ok acc, [])
  | fuel + 1, seen, acc, offset =>
    if offset < 10000 then
      match api offset with
      | none => (.error (), [offset])
      | some trades =>
        if trades = [] then (.ok acc, [offset])
        else
          let nd := dedupPage seen trades
          if nd.1 = [] then (.ok acc, [offset])
          else
            let acc2 := acc ++ nd.1
            if trades.length < limit then (.ok acc2, [offset])
            else
              let r := fetchCeilLoop api limit fuel nd.2 acc2 (offset + limit)
              (r.1, offset :: r.2)
    else (.ok acc, [])

/-- `fetch_big_trades` of `scripts/analyze_big_trades.py`: page size 1000,
offset ceiling 10000. -/
def fetch_big_trades (api : Nat → Option (List Trade)) (fuel : Nat) :
    Except Unit (List Trade) × List Nat :=
  fetchCeilLoop api 1000 fuel [] [] 0

end AnalyzeBigTrades

namespace FetchWithFilters

open PM

/-- `fetch_all_trades_core_api` of `scripts/fetch_with_filters.py`: the same
loop as `analyze_big_trades.fetch_big_trades` (page size 1000, ceiling
10000); the cash filter only changes the request parameters, i.e. which
`api` function is being paginated. -/
def fetch_all_trades_core_api (api : Nat → Option (List Trade)) (fuel : Nat) :
    Except Unit (List Trade) × List Nat :=
  AnalyzeBigTrades.fetchCeilLoop api 1000 fuel [] [] 0

end FetchWithFilters

namespace StreamlitApp

open PM

/-- The pagination loop of `streamlit_app.py:fetch_big_trades`
(`while offset < 10000`).  Its request is wrapped in `try/except` whose
handler shows the error and `break`s, so a failed request returns the
trades accumulated so far instead of propagating a failure; hence the
result type has no error case. -/
def fetchBigLoop (api : Nat → Option (List Trade)) (limit : Nat) :
    Nat → List String → List Trade → Nat → List Trade × List Nat
  | 0, _, acc, _ => (acc, [])
  | fuel + 1, seen, acc, offset =>
    if offset < 10000 then
      match api offset with
      | none => (acc, [offset])
      | some trades =>
        if trades = [] then (acc, [offset])
        else
          let nd := dedupPage seen trades
          if nd.1 = [] then (acc, [offset])
          else
            let acc2 := acc ++ nd.1
            if trades.length < limit then (acc2, [offset])
            else
              let r := fetchBigLoop api limit fuel nd.2 acc2 (offset + limit)
              (r.1, offset :: r.2)
    else (acc, [])

/-- `fetch_big_trades` of `streamlit_app.py`: page size 500, offset ceiling
10000, HTTP errors swallowed by the `try/except` around the request. -/
def fetch_big_trades (api : Nat → Option (List Trade)) (fuel : Nat) :
    List Trade × List Nat :=
  fetchBigLoop api 500 fuel [] [] 0

end StreamlitApp

namespace Graphql

/-- One `ordersMatchedEvents` record of the subgraph response of
`scripts/fetch_historical_trades_graphql.py` (the subgraph serialises its
numeric fields as JSON strings). -/
structure GqlTrade where
  id : String
  timestamp : String
  conditionId : String
  tokenId : String
  makerAssetId : String
  takerAssetId : String
  makerAmountFilled : String
  takerAmountFilled : String
  maker : String
  taker : String
  transactionHash : String
  blockNumber : String
deriving DecidableEq

/-- A concrete record used in closed theorems. -/
def mkGqlTrade (i : String) (h : String) : GqlTrade :=
  { id := i, timestamp := "0", conditionId := "c", tokenId := "", makerAssetId := "",
    takerAssetId := "", makerAmountFilled := "0", takerAmountFilled := "0",
    maker := "", taker := "", transactionHash := h, blockNumber := "0" }

/-- The `data` object of a GraphQL response envelope. -/
structure GqlData where
  ordersMatchedEvents : List GqlTrade
deriving DecidableEq

/-- The parsed GraphQL response envelope: each field is `none` exactly when
the corresponding key is absent from the JSON object. -/
structure GqlResponse where
  errors : Option (List String)
  data : Option GqlData
deriving DecidableEq

/-- `fetch_trades_graphql` of `scripts/fetch_historical_trades_graphql.py`,
from the point where the response body has been parsed: if the body has an
`errors` key it returns `[]`; otherwise it reads
`data.get("data", {}).get("ordersMatchedEvents", [])`, whose defaults make
an absent `data` key yield `[]`. -/
def fetch_trades_graphql (resp : GqlResponse) : List GqlTrade :=
  match resp.errors with
  | some _ => []
  | none =>
    match resp.data with
    | none => []
    | some d => d.ordersMatchedEvents

/-- The pagination loop of `fetch_all_trades_graphql` (`while True` over
`skip`), instrumented with fuel and the list of requested skip values.
Note: the batches are concatenated unchanged — this loop has no
deduplication step. -/
def fetchAllGraphqlLoop (api : Nat → GqlResponse) (batch_size : Nat) :
    Nat → List GqlTrade → Nat → List GqlTrade × List Nat
  | 0, acc, _ => (acc, [])
  | fuel + 1, acc, skip =>
    let trades := fetch_trades_graphql (api skip)
    if trades = [] then (acc, [skip])
    else
      let acc2 := acc ++ trades
      if trades.length < batch_size then (acc2, [skip])
      else
        let r := fetchAllGraphqlLoop api batch_size fuel acc2 (skip + batch_size)
        (r.1, skip :: r.2)

/-- `fetch_all_trades_graphql` of
`scripts/fetch_historical_trades_graphql.py`: batch size 1000, skip starts
at 0. -/
def fetch_all_trades_graphql (api : Nat → GqlResponse) (fuel : Nat) :
    List GqlTrade × List Nat :=
  fetchAllGraphqlLoop api 1000 fuel [] 0

end Graphql

namespace AnalyzeBigTrades

open PM

/-- One row of the leaderboard built by
`scripts/analyze_big_trades.py:calculate_leaderboard`. -/
structure LeaderboardEntry where
  wallet : String
  pnl : ℚ
  total_spent : ℚ
  total_received : ℚ
  final_shares : ℚ
  yes_shares : ℚ
  no_shares : ℚ
  num_big_trades : Nat
  total_volume : ℚ
deriving DecidableEq

/-- The row `calculate_leaderboard` builds for one wallet from that
wallet's trade sequence. -/
def entryOf (resolves_to : String) (w : String) (ts : List Trade) : LeaderboardEntry :=
  let p := positionOf ts
  let shares_in_winning_outcome := sharesInWinning resolves_to p
  { wallet := w
    pnl := shares_in_winning_outcome - p.total_spent + p.total_received
    total_spent := p.total_spent
    total_received := p.total_received
    final_shares := shares_in_winning_outcome
    yes_shares := p.yes_shares
    no_shares := p.no_shares
    num_big_trades := ts.length
    total_volume := p.total_spent + p.total_received }

/-- `calculate_leaderboard` of `scripts/analyze_big_trades.py`: group by
wallet in first-encounter order, build one row per wallet, then
`results.sort(key=pnl, reverse=True)` — a stable descending sort. -/
def calculate_leaderboard (trades : List Trade) (resolves_to : String) :
    List LeaderboardEntry :=
  sortDesc (fun e => e.pnl)
    ((wallets trades).map (fun w => entryOf resolves_to w (tradesOf trades w)))

end AnalyzeBigTrades

namespace AnalyzeMarket

open PM

/-- The per-wallet accumulator of
`scripts/analyze_market.py:analyze_trades`, which additionally records the
`(size, price)` pairs of the BUY trades per outcome for the
average-entry-price calculation. -/
structure Acc where
  yes_shares : ℚ
  no_shares : ℚ
  total_spent : ℚ
  total_received : ℚ
  yes_buys : List (ℚ × ℚ)
  no_buys : List (ℚ × ℚ)
deriving DecidableEq

/-- The empty accumulator. -/
def Acc.init : Acc := ⟨0, 0, 0, 0, [], []⟩

/-- The loop body of `analyze_trades` for one trade. -/
def stepTradeA (p : Acc) (t : Trade) : Acc :=
  if t.side = "BUY" then
    if t.outcome = "Yes" then
      { p with total_spent := p.total_spent + t.size * t.price,
               yes_shares := p.yes_shares + t.size,
               yes_buys := p.yes_buys ++ [(t.size, t.price)] }
    else
      { p with total_spent := p.total_spent + t.size * t.price,
               no_shares := p.no_shares + t.size,
               no_buys := p.no_buys ++ [(t.size, t.price)] }
  else
    if t.outcome = "Yes" then
      { p with total_received := p.total_received + t.size * t.price,
               yes_shares := p.yes_shares - t.size }
    else
      { p with total_received := p.total_received + t.size * t.price,
               no_shares := p.no_shares - t.size }

/-- The accumulator after a whole per-wallet trade sequence. -/
def accOf (ts : List Trade) : Acc := ts.foldl stepTradeA Acc.init

/-- The cash and share counters of an accumulator, as a `Position`. -/
def Acc.toPosition (a : Acc) : Position :=
  ⟨a.yes_shares, a.no_shares, a.total_spent, a.total_received⟩

lemma stepTradeA_toPosition (a : Acc) (t : Trade) :
    (stepTradeA a t).toPosition = stepTrade a.toPosition t := by
  unfold stepTradeA stepTrade Acc.toPosition
  split <;> split <;> simp

lemma accOf_toPosition (ts : List Trade) :
    (accOf ts).toPosition = positionOf ts := by
  unfold accOf positionOf
  suffices h : ∀ (a : Acc),
      (ts.foldl stepTradeA a).toPosition = ts.foldl stepTrade a.toPosition by
    exact h Acc.init
  induction ts with
  | nil => intro a; rfl
  | cons t ts ih => intro a; simp [List.foldl_cons, ih, stepTradeA_toPosition]

/-- The average-entry-price computation of `analyze_trades`: starts from 0,
and only divides behind the two guards `if yes_buys:` / `if no_buys:` and
`if total_shares > 0 else 0`. -/
def avgEntryPrice (resolves_to : String) (a : Acc) : ℚ :=
  if resolves_to = "Yes" then
    if a.yes_buys ≠ [] then
      let total_yes_cost := (a.yes_buys.map (fun sp => sp.1 * sp.2)).sum
      let total_yes_shares := (a.yes_buys.map (fun sp => sp.1)).sum
      if total_yes_shares > 0 then total_yes_cost / total_yes_shares else 0
    else 0
  else
    if a.no_buys ≠ [] then
      let total_no_cost := (a.no_buys.map (fun sp => sp.1 * sp.2)).sum
      let total_no_shares := (a.no_buys.map (fun sp => sp.1)).sum
      if total_no_shares > 0 then total_no_cost / total_no_shares else 0
    else 0

/-- Python's `x or y` for an optional string `x`: `y` when `x` is absent or
empty (falsy), else `x`. -/
def pyOr (a : Option String) (b : String) : String :=
  match a with
  | some s => if s = "" then b else s
  | none => b

/-- One row of the statistics list built by `analyze_trades`. -/
structure UserStats where
  wallet : String
  username : String
  pnl : ℚ
  total_bet : ℚ
  avg_entry_price : ℚ
  avg_entry_pct : ℚ
  final_shares : ℚ
  yes_shares : ℚ
  no_shares : ℚ
  roi : ℚ
  num_trades : Nat
deriving DecidableEq

/-- The row `analyze_trades` builds for one wallet:
`username = first.get('name') or first.get('pseudonym') or wallet[:10]`,
`pnl = final_position_value - total_spent + total_received`,
`roi = pnl / total_bet * 100` guarded by `total_bet > 0`. -/
def userStatsOf (resolves_to : String) (w : String) (ts : List Trade) : UserStats :=
  let first := ts.headD defaultTrade
  let username := pyOr first.name (pyOr first.pseudonym (w.take 10))
  let a := accOf ts
  let shares_in_winning_outcome := if resolves_to = "Yes" then a.yes_shares else a.no_shares
  let pnl := shares_in_winning_outcome - a.total_spent + a.total_received
  let total_bet := a.total_spent
  let roi := if total_bet > 0 then pnl / total_bet * 100 else 0
  let avg := avgEntryPrice resolves_to a
  { wallet := w, username := username, pnl := pnl, total_bet := total_bet,
    avg_entry_price := avg, avg_entry_pct := avg * 100,
    final_shares := shares_in_winning_outcome, yes_shares := a.yes_shares,
    no_shares := a.no_shares, roi := roi, num_trades := ts.length }

/-- `analyze_trades` of `scripts/analyze_market.py`: group by wallet in
first-encounter order, build one row per wallet, then
`results.sort(key=pnl, reverse=True)` — a stable descending sort. -/
def analyze_trades (trades : List Trade) (resolves_to : String) : List UserStats :=
  sortDesc (fun u => u.pnl)
    ((wallets trades).map (fun w => userStatsOf resolves_to w (tradesOf trades w)))

end AnalyzeMarket

namespace StreamlitApp

open PM

/-- The per-wallet accumulator of `streamlit_app.py:calculate_leaderboard`,
which additionally tracks the total shares bought (for the average
purchase price). -/
structure SAcc where
  yes_shares : ℚ
  no_shares : ℚ
  total_spent : ℚ
  total_received : ℚ
  total_shares_bought : ℚ
deriving DecidableEq

/-- The empty accumulator. -/
def SAcc.init : SAcc := ⟨0, 0, 0, 0, 0⟩

/-- The loop body of the streamlit `calculate_leaderboard` for one trade. -/
def stepTradeS (p : SAcc) (t : Trade) : SAcc :=
  if t.side = "BUY" then
    if t.outcome = "Yes" then
      { p with total_spent := p.total_spent + t.size * t.price,
               total_shares_bought := p.total_shares_bought + t.size,
               yes_shares := p.yes_shares + t.size }
    else
      { p with total_spent := p.total_spent + t.size * t.price,
               total_shares_bought := p.total_shares_bought + t.size,
               no_shares := p.no_shares + t.size }
  else
    if t.outcome = "Yes" then
      { p with total_received := p.total_received + t.size * t.price,
               yes_shares := p.yes_shares - t.size }
    else
      { p with total_received := p.total_received + t.size * t.price,
               no_shares := p.no_shares - t.size }

/-- The accumulator after a whole per-wallet trade sequence. -/
def sAccOf (ts : List Trade) : SAcc := ts.foldl stepTradeS SAcc.init

/-- The cash and share counters of the streamlit accumulator, as a
`Position`. -/
def SAcc.toPosition (a : SAcc) : Position :=
  ⟨a.yes_shares, a.no_shares, a.total_spent, a.total_received⟩

lemma stepTradeS_toPosition (a : SAcc) (t : Trade) :
    (stepTradeS a t).toPosition = stepTrade a.toPosition t := by
  unfold stepTradeS stepTrade SAcc.toPosition
  split <;> split <;> simp

lemma sAccOf_toPosition (ts : List Trade) :
    (sAccOf ts).toPosition = positionOf ts := by
  unfold sAccOf positionOf
  suffices h : ∀ (a : SAcc),
      (ts.foldl stepTradeS a).toPosition = ts.foldl stepTrade a.toPosition by
    exact h SAcc.init
  induction ts with
  | nil => intro a; rfl
  | cons t ts ih => intro a; simp [List.foldl_cons, ih, stepTradeS_toPosition]

/-- The streamlit username logic:
`name = first.get('name','').strip(); pseudonym = ...;
username = name or pseudonym or None`. -/
def sUsername (t : Trade) : Option String :=
  let name := (t.name.getD "").trim
  let pseudonym := (t.pseudonym.getD "").trim
  if name ≠ "" then some name else if pseudonym ≠ "" then some pseudonym else none

/-- One row of the leaderboard built by the streamlit
`calculate_leaderboard`. -/
structure LeaderboardEntry where
  wallet : String
  username : Option String
  timestamp : Int
  pnl : ℚ
  total_spent : ℚ
  total_received : ℚ
  final_shares : ℚ
  num_big_trades : Nat
  total_volume : ℚ
  avg_purchase_price : ℚ
deriving DecidableEq

/-- The row the streamlit `calculate_leaderboard` builds for one wallet;
`avg_purchase_price = total_spent / total_shares_bought` guarded by
`total_shares_bought > 0`. -/
def entryOf (resolves_to : String) (w : String) (ts : List Trade) : LeaderboardEntry :=
  let first := ts.headD defaultTrade
  let a := sAccOf ts
  let shares_in_winning_outcome := if resolves_to = "Yes" then a.yes_shares else a.no_shares
  let pnl := shares_in_winning_outcome - a.total_spent + a.total_received
  let avg := if a.total_shares_bought > 0 then a.total_spent / a.total_shares_bought else 0
  { wallet := w, username := sUsername first, timestamp := first.timestamp, pnl := pnl,
    total_spent := a.total_spent, total_received := a.total_received,
    final_shares := shares_in_winning_outcome, num_big_trades := ts.length,
    total_volume := a.total_spent + a.total_received, avg_purchase_price := avg }

/-- `calculate_leaderboard` of `streamlit_app.py`: one row per wallet in
first-encounter order.  Unlike the script variants, this function performs
no sort — the display layer sorts its own copies. -/
def calculate_leaderboard (trades : List Trade) (resolves_to : String) :
    List LeaderboardEntry :=
  (wallets trades).map (fun w => entryOf resolves_to w (tradesOf trades w))

end StreamlitApp

namespace PM

lemma insertDesc_perm {α : Type} (key : α → ℚ) (x : α) (l : List α) :
    (insertDesc key x l).Perm (x :: l) := by
  induction l with
  | nil => simp [insertDesc]
  | cons y ys ih =>
    unfold insertDesc
    split
    · exact List.Perm.refl _
    · exact (ih.cons y).trans (List.Perm.swap x y ys)

lemma sortDesc_perm {α : Type} (key : α → ℚ) (l : List α) :
    (sortDesc key l).Perm l := by
  induction l with
  | nil => simp [sortDesc]
  | cons x xs ih => exact (insertDesc_perm key x _).trans (ih.cons x)

lemma insertDesc_pairwise {α : Type} (key : α → ℚ) (x : α) (l : List α)
    (h : l.Pairwise (fun a b => key b ≤ key a)) :
    (insertDesc key x l).Pairwise (fun a b => key b ≤ key a) := by
  induction l with
  | nil => simp [insertDesc]
  | cons y ys ih =>
    rw [List.pairwise_cons] at h
    obtain ⟨hy, hys⟩ := h
    unfold insertDesc
    split
    case isTrue hle =>
      refine List.Pairwise.cons ?_ (List.Pairwise.cons hy hys)
      intro b hb
      rcases List.mem_cons.mp hb with hb | hb
      · exact hb ▸ hle
      · exact le_trans (hy b hb) hle
    case isFalse hlt =>
      refine List.Pairwise.cons ?_ (ih hys)
      intro b hb
      rcases List.mem_cons.mp ((insertDesc_perm key x ys).mem_iff.mp hb) with hb | hb
      · exact hb ▸ le_of_lt (lt_of_not_le hlt)
      · exact hy b hb

lemma sortDesc_pairwise {α : Type} (key : α → ℚ) (l : List α) :
    (sortDesc key l).Pairwise (fun a b => key b ≤ key a) := by
  induction l with
  | nil => simp [sortDesc]
  | cons x xs ih => exact insertDesc_pairwise key x _ ih

lemma insertDesc_filter {α : Type} (key : α → ℚ) (x : α) (l : List α) (c : ℚ) :
    (insertDesc key x l).filter (fun e => decide (key e = c)) =
      if key x = c then x :: l.filter (fun e => decide (key e = c))
      else l.filter (fun e => decide (key e = c)) := by
  induction l with
  | nil => by_cases hx : key x = c <;> simp [insertDesc, List.filter_cons, hx]
  | cons y ys ih =>
    unfold insertDesc
    split
    case isTrue hle =>
      by_cases hx : key x = c <;> simp [List.filter_cons, hx]
    case isFalse hlt =>
      have hxy : key x < key y := lt_of_not_le hlt
      by_cases hx : key x = c
      · have hy : ¬ key y = c := by
          intro hyc
          rw [hx, hyc] at hxy
          exact lt_irrefl c hxy
        simp [List.filter_cons, hx, hy, ih]
      · by_cases hy : key y = c <;> simp [List.filter_cons, hx, hy, ih]

lemma sortDesc_filter {α : Type} (key : α → ℚ) (l : List α) (c : ℚ) :
    (sortDesc key l).filter (fun e => decide (key e = c)) =
      l.filter (fun e => decide (key e = c)) := by
  induction l with
  | nil => simp [sortDesc]
  | cons x xs ih =>
    show (insertDesc key x (sortDesc key xs)).filter _ = _
    rw [insertDesc_filter]
    by_cases hx : key x = c <;> simp [List.filter_cons, hx, ih]

lemma wallets_go_nodup (trades : List Trade) :
    ∀ (ws : List String), ws.Nodup →
      (trades.foldl
        (fun ws t => if t.proxyWallet ∈ ws then ws else ws ++ [t.proxyWallet]) ws).Nodup := by
  induction trades with
  | nil => intro ws h; exact h
  | cons t ts ih =>
    intro ws h
    rw [List.foldl_cons]
    by_cases hm : t.proxyWallet ∈ ws
    · rw [if_pos hm]; exact ih ws h
    · rw [if_neg hm]
      refine ih _ ?_
      refine List.Nodup.append h (List.nodup_singleton _) ?_
      intro a ha hb
      rw [List.mem_singleton] at hb
      exact hm (hb ▸ ha)

/-- The wallet list the grouping step produces has no repeats. -/
lemma wallets_nodup (trades : List Trade) : (wallets trades).Nodup :=
  wallets_go_nodup trades [] List.nodup_nil

/-- A page all of whose records carry an already-seen hash contributes no
new trades. -/
lemma dedupPage_all_seen (page : List Trade) :
    ∀ (seen : List String),
      (∀ t ∈ page, ∃ h, t.transactionHash = some h ∧ h ∈ seen) →
      (dedupPage seen page).1 = [] := by
  induction page with
  | nil => intro seen _; rfl
  | cons t ts ih =>
    intro seen hall
    obtain ⟨h, hh, hmem⟩ := hall t (List.mem_cons_self t ts)
    have hc : ¬ (h ≠ "" ∧ h ∉ seen) := by
      intro hc; exact hc.2 hmem
    simp only [dedupPage, hh, if_neg hc]
    exact ih seen (fun u hu => hall u (List.mem_cons_of_mem t hu))

/-- Main invariant of the duplicate filter: if the accumulated trades all
carry a distinct, non-empty, already-recorded hash, then after filtering a
page the same holds of the extended accumulation against the grown seen
set, and the seen set only grows. -/
lemma dedupPage_spec (page : List Trade) :
    ∀ (seen : List String) (acc : List Trade),
      (∀ t ∈ acc, ∃ h, t.transactionHash = some h ∧ h ≠ "" ∧ h ∈ seen) →
      ((acc.map Trade.transactionHash).Nodup) →
      (∀ t ∈ acc ++ (dedupPage seen page).1,
        ∃ h, t.transactionHash = some h ∧ h ≠ "" ∧ h ∈ (dedupPage seen page).2) ∧
      (((acc ++ (dedupPage seen page).1).map Trade.transactionHash).Nodup) ∧
      (∀ s ∈ seen, s ∈ (dedupPage seen page).2) := by
  induction page with
  | nil =>
    intro seen acc hacc hnd
    refine ⟨?_, by simpa [dedupPage] using hnd, fun s hs => hs⟩
    intro t ht
    simp only [dedupPage, List.append_nil] at ht ⊢
    exact hacc t ht
  | cons t ts ih =>
    intro seen acc hacc hnd
    cases hh : t.transactionHash with
    | none =>
      simp only [dedupPage, hh]
      exact ih seen acc hacc hnd
    | some h =>
      by_cases hc : h ≠ "" ∧ h ∉ seen
      · have hacc2 : ∀ u ∈ acc ++ [t],
            ∃ h2, u.transactionHash = some h2 ∧ h2 ≠ "" ∧ h2 ∈ h :: seen := by
          intro u hu
          rcases List.mem_append.mp hu with hu | hu
          · obtain ⟨h2, e2, ne2, m2⟩ := hacc u hu
            exact ⟨h2, e2, ne2, List.mem_cons_of_mem h m2⟩
          · rw [List.mem_singleton] at hu
            exact ⟨h, hu ▸ hh, hc.1, List.mem_cons_self h seen⟩
        have hnd2 : ((acc ++ [t]).map Trade.transactionHash).Nodup := by
          rw [List.map_append]
          refine List.Nodup.append hnd (by simp) ?_
          intro a ha hb
          simp only [List.map_cons, List.map_nil, List.mem_singleton, hh] at hb
          obtain ⟨u, hu, he⟩ := List.mem_map.mp ha
          obtain ⟨h2, e2, _, m2⟩ := hacc u hu
          have hsome : some h2 = some h := by rw [← e2, he, hb]
          exact hc.2 (Option.some_inj.mp hsome ▸ m2)
        obtain ⟨k1, k2, k3⟩ := ih (h :: seen) (acc ++ [t]) hacc2 hnd2
        simp only [dedupPage, hh, if_pos hc]
        refine ⟨?_, ?_, ?_⟩
        · intro u hu
          apply k1
          rw [List.append_assoc]
          simpa using hu
        · have : acc ++ t :: (dedupPage (h :: seen) ts).1
              = (acc ++ [t]) ++ (dedupPage (h :: seen) ts).1 := by
            simp
          rw [this]
          exact k2
        · intro s hs
          exact k3 s (List.mem_cons_of_mem h hs)
      · simp only [dedupPage, hh, if_neg hc]
        exact ih seen acc hacc hnd

end PM

namespace AnalyzeMarket

open PM

lemma fetchAllTradesLoop_invariant (api : Nat → Option (List Trade)) (limit : Nat) :
    ∀ (fuel : Nat) (seen : List String) (acc : List Trade) (offset : Nat),
      (∀ t ∈ acc, ∃ h, t.transactionHash = some h ∧ h ≠ "" ∧ h ∈ seen) →
      ((acc.map Trade.transactionHash).Nodup) →
      ∀ l, (fetchAllTradesLoop api limit fuel seen acc offset).1 = .ok l →
        (∀ t ∈ l, ∃ h, t.transactionHash = some h ∧ h ≠ "") ∧
        ((l.map Trade.transactionHash).Nodup) := by
  intro fuel
  induction fuel with
  | zero =>
    intro seen acc offset hacc hnd l hl
    simp only [fetchAllTradesLoop] at hl
    cases hl
    exact ⟨fun t ht => (hacc t ht).imp (fun h hh => ⟨hh.1, hh.2.1⟩), hnd⟩
  | succ fuel ih =>
    intro seen acc offset hacc hnd l hl
    cases hapi : api offset with
    | none => simp only [fetchAllTradesLoop, hapi] at hl; cases hl
    | some trades =>
      simp only [fetchAllTradesLoop, hapi] at hl
      by_cases h1 : trades = []
      · rw [if_pos h1] at hl
        cases hl
        exact ⟨fun t ht => (hacc t ht).imp (fun h hh => ⟨hh.1, hh.2.1⟩), hnd⟩
      · rw [if_neg h1] at hl
        obtain ⟨k1, k2, k3⟩ := dedupPage_spec trades seen acc hacc hnd
        by_cases h2 : (dedupPage seen trades).1 = []
        · rw [if_pos h2] at hl
          cases hl
          exact ⟨fun t ht => (hacc t ht).imp (fun h hh => ⟨hh.1, hh.2.1⟩), hnd⟩
        · rw [if_neg h2] at hl
          by_cases h3 : trades.length < limit
          · rw [if_pos h3] at hl
            cases hl
            exact ⟨fun t ht => (k1 t ht).imp (fun h hh => ⟨hh.1, hh.2.1⟩), k2⟩
          · rw [if_neg h3] at hl
            exact ih (dedupPage seen trades).2 (acc ++ (dedupPage seen trades).1)
              (offset + limit) k1 k2 l hl

lemma fetchAllTradesLoop_error (api : Nat → Option (List Trade)) (limit : Nat) :
    ∀ (fuel : Nat) (seen : List String) (acc : List Trade) (offset o : Nat),
      o ∈ (fetchAllTradesLoop api limit fuel seen acc offset).2 →
      api o = none →
      (fetchAllTradesLoop api limit fuel seen acc offset).1 = .error () := by
  intro fuel
  induction fuel with
  | zero =>
    intro seen acc offset o ho _
    simp only [fetchAllTradesLoop, List.not_mem_nil] at ho
  | succ fuel ih =>
    intro seen acc offset o ho hnone
    cases hapi : api offset with
    | none => simp only [fetchAllTradesLoop, hapi]
    | some trades =>
      simp only [fetchAllTradesLoop, hapi] at ho ⊢
      by_cases h1 : trades = []
      · rw [if_pos h1] at ho
        rw [List.mem_singleton] at ho
        rw [ho, hapi] at hnone
        cases hnone
      · rw [if_neg h1] at ho ⊢
        by_cases h2 : (dedupPage seen trades).1 = []
        · rw [if_pos h2] at ho
          rw [List.mem_singleton] at ho
          rw [ho, hapi] at hnone
          cases hnone
        · rw [if_neg h2] at ho ⊢
          by_cases h3 : trades.length < limit
          · rw [if_pos h3] at ho
            rw [List.mem_singleton] at ho
            rw [ho, hapi] at hnone
            cases hnone
          · rw [if_neg h3] at ho ⊢
            rcases List.mem_cons.mp ho with ho | ho
            · rw [ho, hapi] at hnone
              cases hnone
            · exact ih _ _ (offset + limit) o ho hnone

end AnalyzeMarket

namespace AnalyzeBigTrades

open PM

lemma fetchCeilLoop_error (api : Nat → Option (List Trade)) (limit : Nat) :
    ∀ (fuel : Nat) (seen : List String) (acc : List Trade) (offset o : Nat),
      o ∈ (fetchCeilLoop api limit fuel seen acc offset).2 →
      api o = none →
      (fetchCeilLoop api limit fuel seen acc offset).1 = .error () := by
  intro fuel
  induction fuel with
  | zero =>
    intro seen acc offset o ho _
    simp only [fetchCeilLoop, List.not_mem_nil] at ho
  | succ fuel ih =>
    intro seen acc offset o ho hnone
    by_cases hoff : offset < 10000
    · cases hapi : api offset with
      | none => simp only [fetchCeilLoop, if_pos hoff, hapi]
      | some trades =>
        simp only [fetchCeilLoop, if_pos hoff, hapi] at ho ⊢
        by_cases h1 : trades = []
        · rw [if_pos h1] at ho
          rw [List.mem_singleton] at ho
          rw [ho, hapi] at hnone
          cases hnone
        · rw [if_neg h1] at ho ⊢
          by_cases h2 : (dedupPage seen trades).1 = []
          · rw [if_pos h2] at ho
            rw [List.mem_singleton] at ho
            rw [ho, hapi] at hnone
            cases hnone
          · rw [if_neg h2] at ho ⊢
            by_cases h3 : trades.length < limit
            · rw [if_pos h3] at ho
              rw [List.mem_singleton] at ho
              rw [ho, hapi] at hnone
              cases hnone
            · rw [if_neg h3] at ho ⊢
              rcases List.mem_cons.mp ho with ho | ho
              · rw [ho, hapi] at hnone
                cases hnone
              · exact ih _ _ (offset + limit) o ho hnone
    · simp only [fetchCeilLoop, if_neg hoff, List.not_mem_nil] at ho

lemma fetchCeilLoop_offsets (api : Nat → Option (List Trade)) (limit : Nat) :
    ∀ (fuel : Nat) (seen : List String) (acc : List Trade) (offset o : Nat),
      o ∈ (fetchCeilLoop api limit fuel seen acc offset).2 → o < 10000 := by
  intro fuel
  induction fuel with
  | zero =>
    intro seen acc offset o ho
    simp only [fetchCeilLoop, List.not_mem_nil] at ho
  | succ fuel ih =>
    intro seen acc offset o ho
    by_cases hoff : offset < 10000
    · cases hapi : api offset with
      | none =>
        simp only [fetchCeilLoop, if_pos hoff, hapi, List.mem_singleton] at ho
        exact ho ▸ hoff
      | some trades =>
        simp only [fetchCeilLoop, if_pos hoff, hapi] at ho
        by_cases h1 : trades = []
        · rw [if_pos h1] at ho
          rw [List.mem_singleton] at ho
          exact ho ▸ hoff
        · rw [if_neg h1] at ho
          by_cases h2 : (dedupPage seen trades).1 = []
          · rw [if_pos h2] at ho
            rw [List.mem_singleton] at ho
            exact ho ▸ hoff
          · rw [if_neg h2] at ho
            by_cases h3 : trades.length < limit
            · rw [if_pos h3] at ho
              rw [List.mem_singleton] at ho
              exact ho ▸ hoff
            · rw [if_neg h3] at ho
              rcases List.mem_cons.mp ho with ho | ho
              · exact ho ▸ hoff
              · exact ih _ _ (offset + limit) o ho
    · simp only [fetchCeilLoop, if_neg hoff, List.not_mem_nil] at ho


lemma fetchCeilLoop_invariant (api : Nat → Option (List Trade)) (limit : Nat) :
    ∀ (fuel : Nat) (seen : List String) (acc : List Trade) (offset : Nat),
      (∀ t ∈ acc, ∃ h, t.transactionHash = some h ∧ h ≠ "" ∧ h ∈ seen) →
      ((acc.map Trade.transactionHash).Nodup) →
      ∀ l, (fetchCeilLoop api limit fuel seen acc offset).1 = .ok l →
        (∀ t ∈ l, ∃ h, t.transactionHash = some h ∧ h ≠ "") ∧
        ((l.map Trade.transactionHash).Nodup) := by
  intro fuel
  induction fuel with
  | zero =>
    intro seen acc offset hacc hnd l hl
    simp only [fetchCeilLoop] at hl
    cases hl
    exact ⟨fun t ht => (hacc t ht).imp (fun h hh => ⟨hh.1, hh.2.1⟩), hnd⟩
  | succ fuel ih =>
    intro seen acc offset hacc hnd l hl
    by_cases hoff : offset < 10000
    · cases hapi : api offset with
      | none => simp only [fetchCeilLoop, if_pos hoff, hapi] at hl; cases hl
      | some trades =>
        simp only [fetchCeilLoop, if_pos hoff, hapi] at hl
        by_cases h1 : trades = []
        · rw [if_pos h1] at hl
          cases hl
          exact ⟨fun t ht => (hacc t ht).imp (fun h hh => ⟨hh.1, hh.2.1⟩), hnd⟩
        · rw [if_neg h1] at hl
          obtain ⟨k1, k2, k3⟩ := dedupPage_spec trades seen acc hacc hnd
          by_cases h2 : (dedupPage seen trades).1 = []
          · rw [if_pos h2] at hl
            cases hl
            exact ⟨fun t ht => (hacc t ht).imp (fun h hh => ⟨hh.1, hh.2.1⟩), hnd⟩
          · rw [if_neg h2] at hl
            by_cases h3 : trades.length < limit
            · rw [if_pos h3] at hl
              cases hl
              exact ⟨fun t ht => (k1 t ht).imp (fun h hh => ⟨hh.1, hh.2.1⟩), k2⟩
            · rw [if_neg h3] at hl
              exact ih (dedupPage seen trades).2 (acc ++ (dedupPage seen trades).1)
                (offset + limit) k1 k2 l hl
    · simp only [fetchCeilLoop, if_neg hoff] at hl
      cases hl
      exact ⟨fun t ht => (hacc t ht).imp (fun h hh => ⟨hh.1, hh.2.1⟩), hnd⟩

end AnalyzeBigTrades

namespace StreamlitApp

open PM

lemma fetchBigLoop_offsets (api : Nat → Option (List Trade)) (limit : Nat) :
    ∀ (fuel : Nat) (seen : List String) (acc : List Trade) (offset o : Nat),
      o ∈ (fetchBigLoop api limit fuel seen acc offset).2 → o < 10000 := by
  intro fuel
  induction fuel with
  | zero =>
    intro seen acc offset o ho
    simp only [fetchBigLoop, List.not_mem_nil] at ho
  | succ fuel ih =>
    intro seen acc offset o ho
    by_cases hoff : offset < 10000
    · cases hapi : api offset with
      | none =>
        simp only [fetchBigLoop, if_pos hoff, hapi, List.mem_singleton] at ho
        exact ho ▸ hoff
      | some trades =>
        simp only [fetchBigLoop, if_pos hoff, hapi] at ho
        by_cases h1 : trades = []
        · rw [if_pos h1] at ho
          rw [List.mem_singleton] at ho
          exact ho ▸ hoff
        · rw [if_neg h1] at ho
          by_cases h2 : (dedupPage seen trades).1 = []
          · rw [if_pos h2] at ho
            rw [List.mem_singleton] at ho
            exact ho ▸ hoff
          · rw [if_neg h2] at ho
            by_cases h3 : trades.length < limit
            · rw [if_pos h3] at ho
              rw [List.mem_singleton] at ho
              exact ho ▸ hoff
            · rw [if_neg h3] at ho
              rcases List.mem_cons.mp ho with ho | ho
              · exact ho ▸ hoff
              · exact ih _ _ (offset + limit) o ho
    · simp only [fetchBigLoop, if_neg hoff, List.not_mem_nil] at ho

end StreamlitApp

namespace AnalyzeMarket

open PM

lemma accOf_perm {ts ts' : List Trade} (h : ts.Perm ts') :
    (accOf ts).yes_shares = (accOf ts').yes_shares
    ∧ (accOf ts).no_shares = (accOf ts').no_shares
    ∧ (accOf ts).total_spent = (accOf ts').total_spent
    ∧ (accOf ts).total_received = (accOf ts').total_received := by
  have e : (accOf ts).toPosition = (accOf ts').toPosition := by
    rw [accOf_toPosition, accOf_toPosition, positionOf_perm h]
  exact ⟨congrArg Position.yes_shares e, congrArg Position.no_shares e,
         congrArg Position.total_spent e, congrArg Position.total_received e⟩

end AnalyzeMarket

namespace StreamlitApp

open PM

lemma sAccOf_perm {ts ts' : List Trade} (h : ts.Perm ts') :
    (sAccOf ts).yes_shares = (sAccOf ts').yes_shares
    ∧ (sAccOf ts).no_shares = (sAccOf ts').no_shares
    ∧ (sAccOf ts).total_spent = (sAccOf ts').total_spent
    ∧ (sAccOf ts).total_received = (sAccOf ts').total_received := by
  have e : (sAccOf ts).toPosition = (sAccOf ts').toPosition := by
    rw [sAccOf_toPosition, sAccOf_toPosition, positionOf_perm h]
  exact ⟨congrArg Position.yes_shares e, congrArg Position.no_shares e,
         congrArg Position.total_spent e, congrArg Position.total_received e⟩

end StreamlitApp


/-- BUY 10 Yes at 0.20 by wallet W (the design document's worked example). -/
def tradeBuyYes : PM.Trade :=
  { transactionHash := some ("t1"), proxyWallet := "W", side := "BUY", outcome := "Yes",
    size := 10, price := 1/5, timestamp := 0, name := none, pseudonym := none }

/-- SELL 4 Yes at 0.30 by wallet W. -/
def tradeSellYes : PM.Trade :=
  { transactionHash := some ("t2"), proxyWallet := "W", side := "SELL", outcome := "Yes",
    size := 4, price := 3/10, timestamp := 1, name := none, pseudonym := none }

/-- BUY 5 No at 0.10 by wallet W. -/
def tradeBuyNo : PM.Trade :=
  { transactionHash := some ("t3"), proxyWallet := "W", side := "BUY", outcome := "No",
    size := 5, price := 1/10, timestamp := 2, name := none, pseudonym := none }

/-- The worked example's trade sequence. -/
def sampleTrades : List PM.Trade := [tradeBuyYes, tradeSellYes, tradeBuyNo]

/-- The same three trades with the last two exchanged. -/
def sampleTradesPerm : List PM.Trade := [tradeBuyYes, tradeBuyNo, tradeSellYes]

lemma sampleTrades_perm : sampleTrades.Perm sampleTradesPerm :=
  List.Perm.cons tradeBuyYes (List.Perm.swap tradeBuyNo tradeSellYes [])

/-- C1: for every per-wallet trade sequence and chosen resolution outcome,
each of the three aggregators reports
`pnl = finalShares - totalSpent + totalReceived`, where `finalShares` is the
Yes-share counter when the resolution is `Yes` and the No-share counter
otherwise, and the reported pnl is unchanged under any permutation of the
wallet's trade sequence. -/
theorem pnl_formula_and_perm_invariance
    (resolves_to w : String) (ts ts' : List PM.Trade) (hperm : ts.Perm ts') :
    ((AnalyzeBigTrades.entryOf resolves_to w ts).pnl
        = (AnalyzeBigTrades.entryOf resolves_to w ts).final_shares
          - (AnalyzeBigTrades.entryOf resolves_to w ts).total_spent
          + (AnalyzeBigTrades.entryOf resolves_to w ts).total_received
      ∧ (AnalyzeBigTrades.entryOf resolves_to w ts).final_shares
        = (if resolves_to = "Yes" then (AnalyzeBigTrades.entryOf resolves_to w ts).yes_shares
           else (AnalyzeBigTrades.entryOf resolves_to w ts).no_shares)
      ∧ (AnalyzeBigTrades.entryOf resolves_to w ts).pnl
        = (AnalyzeBigTrades.entryOf resolves_to w ts').pnl)
    ∧ ((AnalyzeMarket.userStatsOf resolves_to w ts).pnl
        = (AnalyzeMarket.userStatsOf resolves_to w ts).final_shares
          - (AnalyzeMarket.accOf ts).total_spent + (AnalyzeMarket.accOf ts).total_received
      ∧ (AnalyzeMarket.userStatsOf resolves_to w ts).pnl
        = (AnalyzeMarket.userStatsOf resolves_to w ts').pnl)
    ∧ ((StreamlitApp.entryOf resolves_to w ts).pnl
        = (StreamlitApp.entryOf resolves_to w ts).final_shares
          - (StreamlitApp.entryOf resolves_to w ts).total_spent
          + (StreamlitApp.entryOf resolves_to w ts).total_received
      ∧ (StreamlitApp.entryOf resolves_to w ts).pnl
        = (StreamlitApp.entryOf resolves_to w ts').pnl) := by
  have hp := PM.positionOf_perm hperm
  refine ⟨⟨rfl, rfl, ?_⟩, ⟨rfl, ?_⟩, ⟨rfl, ?_⟩⟩
  · simp only [AnalyzeBigTrades.entryOf, hp]
  · obtain ⟨e1, e2, e3, e4⟩ := AnalyzeMarket.accOf_perm hperm
    simp only [AnalyzeMarket.userStatsOf]
    rw [e1, e2, e3, e4]
  · obtain ⟨e1, e2, e3, e4⟩ := StreamlitApp.sAccOf_perm hperm
    simp only [StreamlitApp.entryOf]
    rw [e1, e2, e3, e4]

/-- Witness for C1: the worked example of the design document, with its
permuted variant; the reported pnl is 4.7 either way. -/
theorem pnl_formula_and_perm_invariance_witness :
    (AnalyzeBigTrades.entryOf ("Yes") ("W") sampleTrades).pnl = 47/10
    ∧ (AnalyzeBigTrades.entryOf ("Yes") ("W") sampleTrades).pnl
      = (AnalyzeBigTrades.entryOf ("Yes") ("W") sampleTradesPerm).pnl :=
  ⟨by
    simp [AnalyzeBigTrades.entryOf, PM.positionOf, PM.stepTrade, PM.sharesInWinning,
      PM.Position.init, sampleTrades, tradeBuyYes, tradeSellYes, tradeBuyNo]
    norm_num,
   (pnl_formula_and_perm_invariance ("Yes") ("W") sampleTrades sampleTradesPerm
      sampleTrades_perm).1.2.2⟩

lemma spentDelta_nonneg (t : PM.Trade) (hs : 0 ≤ t.size) (hp : 0 ≤ t.price) :
    0 ≤ PM.spentDelta t := by
  unfold PM.spentDelta
  split
  · exact mul_nonneg hs hp
  · exact le_refl 0

lemma receivedDelta_nonneg (t : PM.Trade) (hs : 0 ≤ t.size) (hp : 0 ≤ t.price) :
    0 ≤ PM.receivedDelta t := by
  unfold PM.receivedDelta
  split
  · exact le_refl 0
  · exact mul_nonneg hs hp

/-- C9: over a per-wallet trade sequence of non-negative sizes and prices,
the `total_spent` and `total_received` accumulators are non-negative and
processing one more trade never decreases either of them — in the shared
position fold of the big-trades leaderboards and in the accumulator of
`analyze_trades` alike. -/
theorem accumulators_nonneg_monotone
    (ts : List PM.Trade) (t : PM.Trade)
    (hall : ∀ u ∈ ts ++ [t], 0 ≤ u.size ∧ 0 ≤ u.price) :
    (0 ≤ (PM.positionOf ts).total_spent
      ∧ 0 ≤ (PM.positionOf ts).total_received)
    ∧ ((PM.positionOf ts).total_spent ≤ (PM.positionOf (ts ++ [t])).total_spent
      ∧ (PM.positionOf ts).total_received ≤ (PM.positionOf (ts ++ [t])).total_received)
    ∧ ((AnalyzeMarket.accOf ts).total_spent ≤ (AnalyzeMarket.accOf (ts ++ [t])).total_spent
      ∧ (AnalyzeMarket.accOf ts).total_received
        ≤ (AnalyzeMarket.accOf (ts ++ [t])).total_received) := by
  have hmemts : ∀ u ∈ ts, 0 ≤ u.size ∧ 0 ≤ u.price := fun u hu =>
    hall u (List.mem_append.mpr (Or.inl hu))
  have hmemt : 0 ≤ t.size ∧ 0 ≤ t.price :=
    hall t (List.mem_append.mpr (Or.inr (List.mem_singleton.mpr rfl)))
  have happ : PM.positionOf (ts ++ [t]) = PM.stepTrade (PM.positionOf ts) t := by
    unfold PM.positionOf
    rw [List.foldl_append]
    rfl
  have hspent : (PM.positionOf ts).total_spent
      ≤ (PM.positionOf (ts ++ [t])).total_spent := by
    rw [happ, PM.stepTrade_total_spent]
    exact le_add_of_nonneg_right (spentDelta_nonneg t hmemt.1 hmemt.2)
  have hrecv : (PM.positionOf ts).total_received
      ≤ (PM.positionOf (ts ++ [t])).total_received := by
    rw [happ, PM.stepTrade_total_received]
    exact le_add_of_nonneg_right (receivedDelta_nonneg t hmemt.1 hmemt.2)
  have b1 : ∀ l : List PM.Trade,
      (AnalyzeMarket.accOf l).total_spent = (PM.positionOf l).total_spent :=
    fun l => congrArg PM.Position.total_spent (AnalyzeMarket.accOf_toPosition l)
  have b2 : ∀ l : List PM.Trade,
      (AnalyzeMarket.accOf l).total_received = (PM.positionOf l).total_received :=
    fun l => congrArg PM.Position.total_received (AnalyzeMarket.accOf_toPosition l)
  refine ⟨⟨?_, ?_⟩, ⟨hspent, hrecv⟩, ?_, ?_⟩
  · rw [PM.positionOf, PM.foldl_total_spent]
    have : ∀ x ∈ ts.map PM.spentDelta, 0 ≤ x := by
      intro x hx
      obtain ⟨u, hu, he⟩ := List.mem_map.mp hx
      exact he ▸ spentDelta_nonneg u (hmemts u hu).1 (hmemts u hu).2
    have hsum := List.sum_nonneg this
    simpa [PM.Position.init] using hsum
  · rw [PM.positionOf, PM.foldl_total_received]
    have : ∀ x ∈ ts.map PM.receivedDelta, 0 ≤ x := by
      intro x hx
      obtain ⟨u, hu, he⟩ := List.mem_map.mp hx
      exact he ▸ receivedDelta_nonneg u (hmemts u hu).1 (hmemts u hu).2
    have hsum := List.sum_nonneg this
    simpa [PM.Position.init] using hsum
  · rw [b1, b1]
    exact hspent
  · rw [b2, b2]
    exact hrecv

/-- Witness for C9: the worked example's trades all have non-negative size
and price, and appending one more BUY leaves both accumulators no smaller. -/
theorem accumulators_nonneg_monotone_witness :
    0 ≤ (PM.positionOf sampleTrades).total_spent
    ∧ (PM.positionOf sampleTrades).total_spent
      ≤ (PM.positionOf (sampleTrades ++ [tradeBuyNo])).total_spent :=
  have hall : ∀ u ∈ sampleTrades ++ [tradeBuyNo], 0 ≤ u.size ∧ 0 ≤ u.price := by
    intro u hu
    simp only [sampleTrades, List.mem_append, List.mem_cons, List.mem_singleton,
      List.not_mem_nil, or_false] at hu
    rcases hu with (h | h | h) | h <;> subst h <;>
      exact ⟨by norm_num [tradeBuyYes, tradeSellYes, tradeBuyNo],
             by norm_num [tradeBuyYes, tradeSellYes, tradeBuyNo]⟩
  ⟨(accumulators_nonneg_monotone sampleTrades tradeBuyNo hall).1.1,
   (accumulators_nonneg_monotone sampleTrades tradeBuyNo hall).2.1.1⟩

/-- C7: the average-price computations yield 0 instead of dividing when the
share denominator is zero: the streamlit `avg_purchase_price` when no shares
were bought, and the `analyze_trades` average entry price when the winning
outcome's bought shares sum to zero. -/
theorem avg_price_zero_denominator
    (resolves_to w : String) (ts : List PM.Trade) :
    ((StreamlitApp.sAccOf ts).total_shares_bought = 0 →
      (StreamlitApp.entryOf resolves_to w ts).avg_purchase_price = 0)
    ∧ (((AnalyzeMarket.accOf ts).yes_buys.map (fun sp => sp.1)).sum = 0 →
      AnalyzeMarket.avgEntryPrice ("Yes") (AnalyzeMarket.accOf ts) = 0)
    ∧ (resolves_to ≠ "Yes" →
      ((AnalyzeMarket.accOf ts).no_buys.map (fun sp => sp.1)).sum = 0 →
      AnalyzeMarket.avgEntryPrice resolves_to (AnalyzeMarket.accOf ts) = 0) := by
  refine ⟨?_, ?_, ?_⟩
  · intro h
    simp only [StreamlitApp.entryOf, h]
    norm_num
  · intro h
    unfold AnalyzeMarket.avgEntryPrice
    rw [if_pos rfl]
    split
    · rw [h]
      norm_num
    · rfl
  · intro hne h
    unfold AnalyzeMarket.avgEntryPrice
    rw [if_neg hne]
    split
    · rw [h]
      norm_num
    · rfl

/-- Witness for C7: on an empty trade sequence every denominator is zero and
all three average prices are 0. -/
theorem avg_price_zero_denominator_witness :
    (StreamlitApp.entryOf ("Yes") ("w") []).avg_purchase_price = 0
    ∧ AnalyzeMarket.avgEntryPrice ("Yes") (AnalyzeMarket.accOf []) = 0
    ∧ AnalyzeMarket.avgEntryPrice ("No") (AnalyzeMarket.accOf []) = 0 :=
  ⟨(avg_price_zero_denominator ("Yes") ("w") []).1 rfl,
   (avg_price_zero_denominator ("Yes") ("w") []).2.1 rfl,
   (avg_price_zero_denominator ("No") ("w") []).2.2 (by decide) rfl⟩

/-- C8: the GraphQL fetch checks the `errors` key first — any response with
an `errors` key yields the empty trade list without touching `data`, and a
response lacking both keys yields the empty list rather than a missing-key
fault. -/
theorem graphql_errors_checked (resp : Graphql.GqlResponse) :
    (∀ e, resp.errors = some e → Graphql.fetch_trades_graphql resp = [])
    ∧ (resp.errors = none → resp.data = none → Graphql.fetch_trades_graphql resp = []) := by
  constructor
  · intro e he
    unfold Graphql.fetch_trades_graphql
    rw [he]
  · intro he hd
    unfold Graphql.fetch_trades_graphql
    rw [he, hd]

/-- Witness for C8: a concrete response carrying an error message yields
`[]`, and so does a response with neither key. -/
theorem graphql_errors_checked_witness :
    Graphql.fetch_trades_graphql { errors := some (["boom"]), data := none } = []
    ∧ Graphql.fetch_trades_graphql { errors := none, data := none } = [] :=
  ⟨(graphql_errors_checked { errors := some (["boom"]), data := none }).1 ["boom"] rfl,
   (graphql_errors_checked { errors := none, data := none }).2 rfl rfl⟩

/-- C3: from any loop state, a page that is empty, or whose records all
carry an already-seen transaction hash, or that is shorter than the page
size, makes the fetch loop terminate with exactly one request (the one that
returned that page) — no further page is requested.  This holds for the
`analyze_market` loop and for the ceiling loop of
`fetch_with_filters.fetch_all_trades_core_api` and
`analyze_big_trades.fetch_big_trades` (whose requests presuppose the offset
is below the ceiling). -/
theorem stop_conditions_terminate
    (api : Nat → Option (List PM.Trade)) (limit fuel : Nat)
    (seen : List String) (acc : List PM.Trade) (offset : Nat)
    (page : List PM.Trade) (hpage : api offset = some page) :
    ((page = [] →
      AnalyzeMarket.fetchAllTradesLoop api limit (fuel + 1) seen acc offset
        = (.ok acc, [offset]))
    ∧ ((∀ t ∈ page, ∃ h, t.transactionHash = some h ∧ h ∈ seen) →
      AnalyzeMarket.fetchAllTradesLoop api limit (fuel + 1) seen acc offset
        = (.ok acc, [offset]))
    ∧ (page.length < limit →
      (AnalyzeMarket.fetchAllTradesLoop api limit (fuel + 1) seen acc offset).2
        = [offset]))
    ∧ (offset < 10000 →
      (page = [] →
        AnalyzeBigTrades.fetchCeilLoop api limit (fuel + 1) seen acc offset
          = (.ok acc, [offset]))
      ∧ ((∀ t ∈ page, ∃ h, t.transactionHash = some h ∧ h ∈ seen) →
        AnalyzeBigTrades.fetchCeilLoop api limit (fuel + 1) seen acc offset
          = (.ok acc, [offset]))
      ∧ (page.length < limit →
        (AnalyzeBigTrades.fetchCeilLoop api limit (fuel + 1) seen acc offset).2
          = [offset])) := by
  constructor
  · refine ⟨?_, ?_, ?_⟩
    · intro h
      simp only [AnalyzeMarket.fetchAllTradesLoop, hpage]
      rw [if_pos h]
    · intro hall
      by_cases h1 : page = []
      · simp only [AnalyzeMarket.fetchAllTradesLoop, hpage]
        rw [if_pos h1]
      · have hd := PM.dedupPage_all_seen page seen hall
        simp only [AnalyzeMarket.fetchAllTradesLoop, hpage]
        rw [if_neg h1, if_pos hd]
    · intro hlen
      by_cases h1 : page = []
      · simp only [AnalyzeMarket.fetchAllTradesLoop, hpage]
        rw [if_pos h1]
      · by_cases h2 : (PM.dedupPage seen page).1 = []
        · simp only [AnalyzeMarket.fetchAllTradesLoop, hpage]
          rw [if_neg h1, if_pos h2]
        · simp only [AnalyzeMarket.fetchAllTradesLoop, hpage]
          rw [if_neg h1, if_neg h2, if_pos hlen]
  · intro hoff
    refine ⟨?_, ?_, ?_⟩
    · intro h
      simp only [AnalyzeBigTrades.fetchCeilLoop, hpage]
      rw [if_pos hoff, if_pos h]
    · intro hall
      by_cases h1 : page = []
      · simp only [AnalyzeBigTrades.fetchCeilLoop, hpage]
        rw [if_pos hoff, if_pos h1]
      · have hd := PM.dedupPage_all_seen page seen hall
        simp only [AnalyzeBigTrades.fetchCeilLoop, hpage]
        rw [if_pos hoff, if_neg h1, if_pos hd]
    · intro hlen
      by_cases h1 : page = []
      · simp only [AnalyzeBigTrades.fetchCeilLoop, hpage]
        rw [if_pos hoff, if_pos h1]
      · by_cases h2 : (PM.dedupPage seen page).1 = []
        · simp only [AnalyzeBigTrades.fetchCeilLoop, hpage]
          rw [if_pos hoff, if_neg h1, if_pos h2]
        · simp only [AnalyzeBigTrades.fetchCeilLoop, hpage]
          rw [if_pos hoff, if_neg h1, if_neg h2, if_pos hlen]

/-- Witness for C3: an API whose first page is already empty makes both the
`analyze_market` fetcher and the core-API fetcher return no trades after a
single request at offset 0. -/
theorem stop_conditions_terminate_witness :
    AnalyzeMarket.fetch_all_trades (fun _ => some []) 5 = (.ok [], [0])
    ∧ FetchWithFilters.fetch_all_trades_core_api (fun _ => some []) 5 = (.ok [], [0]) :=
  ⟨(stop_conditions_terminate (fun _ => some []) 500 4 [] [] 0 [] rfl).1.1 rfl,
   ((stop_conditions_terminate (fun _ => some []) 1000 4 [] [] 0 [] rfl).2
      (by decide)).1 rfl⟩

/-- C2 (amended to the REST fetchers): whatever pages the API returns, when
`fetch_all_trades` completes, no two trades of its output share a
transaction hash. -/
theorem rest_fetch_no_duplicate_hashes
    (api : Nat → Option (List PM.Trade)) (fuel : Nat) (l : List PM.Trade)
    (h : (AnalyzeMarket.fetch_all_trades api fuel).1 = .ok l) :
    (l.map PM.Trade.transactionHash).Nodup :=
  (AnalyzeMarket.fetchAllTradesLoop_invariant api 500 fuel [] [] 0
    (fun t ht => absurd ht (List.not_mem_nil t)) (by simp) l h).2

/-- A trade with the literal hash value a. -/
def hashTradeA : PM.Trade := { PM.defaultTrade with transactionHash := some ("a") }

/-- An API that always answers with the same one-trade page. -/
def singlePageApi : Nat → Option (List PM.Trade) := fun _ => some ([hashTradeA])

/-- Witness for C2: the one-page API yields exactly that page, and its hash
list has no duplicates. -/
theorem rest_fetch_no_duplicate_hashes_witness :
    (AnalyzeMarket.fetch_all_trades singlePageApi 3).1 = .ok ([hashTradeA])
    ∧ ([hashTradeA].map PM.Trade.transactionHash).Nodup :=
  ⟨rfl, rest_fetch_no_duplicate_hashes singlePageApi 3 [hashTradeA] rfl⟩

/-- A GraphQL response whose single batch holds two events with the same
transaction hash (one transaction can match several orders). -/
def dupGqlApi : Nat → Graphql.GqlResponse := fun _ =>
  { errors := none,
    data := some { ordersMatchedEvents :=
      [Graphql.mkGqlTrade ("e1") ("h"), Graphql.mkGqlTrade ("e2") ("h")] } }

/-- Counterexample to C2 as stated for all fetchers: the GraphQL fetcher
has no deduplication step, so this run returns two trades with the same
transactionHash. -/
theorem graphql_fetch_returns_duplicate_hashes :
    ¬ (((Graphql.fetch_all_trades_graphql dupGqlApi 3).1.map
        Graphql.GqlTrade.transactionHash).Nodup) := by decide

/-- C10: every trade in the output of `analyze_market.fetch_all_trades` and
of `fetch_with_filters.fetch_all_trades_core_api` carries a present,
non-empty transaction hash — records whose hash is absent or empty are
silently dropped by the duplicate filter. -/
theorem fetch_output_hashes_present_nonempty
    (api : Nat → Option (List PM.Trade)) (fuel : Nat) (l : List PM.Trade) :
    ((AnalyzeMarket.fetch_all_trades api fuel).1 = .ok l →
      ∀ t ∈ l, ∃ s, t.transactionHash = some s ∧ s ≠ "")
    ∧ ((FetchWithFilters.fetch_all_trades_core_api api fuel).1 = .ok l →
      ∀ t ∈ l, ∃ s, t.transactionHash = some s ∧ s ≠ "") :=
  ⟨fun h => (AnalyzeMarket.fetchAllTradesLoop_invariant api 500 fuel [] [] 0
      (fun t ht => absurd ht (List.not_mem_nil t)) (by simp) l h).1,
   fun h => (AnalyzeBigTrades.fetchCeilLoop_invariant api 1000 fuel [] [] 0
      (fun t ht => absurd ht (List.not_mem_nil t)) (by simp) l h).1⟩

/-- An API returning one page holding a hashless record and a hashed one. -/
def mixedPageApi : Nat → Option (List PM.Trade) :=
  fun _ => some ([PM.defaultTrade, hashTradeA])

/-- Witness for C10: both fetchers exclude the hashless record from their
output, and the surviving trade's hash is present and non-empty. -/
theorem fetch_output_hashes_present_nonempty_witness :
    (AnalyzeMarket.fetch_all_trades mixedPageApi 2).1 = .ok ([hashTradeA])
    ∧ (FetchWithFilters.fetch_all_trades_core_api mixedPageApi 2).1 = .ok ([hashTradeA])
    ∧ (∃ s, hashTradeA.transactionHash = some s ∧ s ≠ "")
    ∧ (∃ s, hashTradeA.transactionHash = some s ∧ s ≠ "") :=
  ⟨rfl, rfl,
   (fetch_output_hashes_present_nonempty mixedPageApi 2 [hashTradeA]).1 rfl hashTradeA
     (List.mem_singleton.mpr rfl),
   (fetch_output_hashes_present_nonempty mixedPageApi 2 [hashTradeA]).2 rfl hashTradeA
     (List.mem_singleton.mpr rfl)⟩

/-- C6 (amended to the script fetchers): in `analyze_market.fetch_all_trades`,
`analyze_big_trades.fetch_big_trades` and
`fetch_with_filters.fetch_all_trades_core_api`, a non-success HTTP status on
any issued request makes the whole fetch abort with a hard failure — the
caller never receives a partial trade list. -/
theorem http_failure_aborts
    (api : Nat → Option (List PM.Trade)) (fuel o : Nat) (hfail : api o = none) :
    (o ∈ (AnalyzeMarket.fetch_all_trades api fuel).2 →
      (AnalyzeMarket.fetch_all_trades api fuel).1 = .error ())
    ∧ (o ∈ (AnalyzeBigTrades.fetch_big_trades api fuel).2 →
      (AnalyzeBigTrades.fetch_big_trades api fuel).1 = .error ())
    ∧ (o ∈ (FetchWithFilters.fetch_all_trades_core_api api fuel).2 →
      (FetchWithFilters.fetch_all_trades_core_api api fuel).1 = .error ()) :=
  ⟨fun hm => AnalyzeMarket.fetchAllTradesLoop_error api 500 fuel [] [] 0 o hm hfail,
   fun hm => AnalyzeBigTrades.fetchCeilLoop_error api 1000 fuel [] [] 0 o hm hfail,
   fun hm => AnalyzeBigTrades.fetchCeilLoop_error api 1000 fuel [] [] 0 o hm hfail⟩

/-- An API that fails every request. -/
def noApi : Nat → Option (List PM.Trade) := fun _ => none

/-- Witness for C6: when the very first request fails, both script fetchers
end in the error state. -/
theorem http_failure_aborts_witness :
    (AnalyzeMarket.fetch_all_trades noApi 1).1 = .error ()
    ∧ (AnalyzeBigTrades.fetch_big_trades noApi 1).1 = .error () :=
  ⟨(http_failure_aborts noApi 1 0 rfl).1 (by decide),
   (http_failure_aborts noApi 1 0 rfl).2.1 (by decide)⟩

/-- A full page of 500 records at offset 0 (499 hashless plus one fresh). -/
def fullPageA : List PM.Trade := List.replicate 499 PM.defaultTrade ++ [hashTradeA]

/-- An API whose first page is full and fresh and whose second request
fails. -/
def failSecondApi : Nat → Option (List PM.Trade) :=
  fun k => if k = 0 then some fullPageA else none

set_option maxRecDepth 40000 in
/-- Counterexample to C6 as stated for every fetcher: the streamlit
`fetch_big_trades` catches the HTTP failure of its second request and
returns the partial, non-empty trade list of the first page — the caller
sees no failure at all. -/
theorem streamlit_returns_partial_after_http_failure :
    failSecondApi 500 = none
    ∧ StreamlitApp.fetch_big_trades failSecondApi 2 = ([hashTradeA], [0, 500]) :=
  ⟨rfl, rfl⟩

/-- C4 (amended to the ceiling fetchers): `analyze_big_trades`,
`fetch_with_filters` and the streamlit app never issue a page request at an
offset of 10000 or beyond, whatever the API returns and however much fuel
the loop is given. -/
theorem offset_ceiling_bound
    (api : Nat → Option (List PM.Trade)) (fuel o : Nat) :
    (o ∈ (AnalyzeBigTrades.fetch_big_trades api fuel).2 → o < 10000)
    ∧ (o ∈ (FetchWithFilters.fetch_all_trades_core_api api fuel).2 → o < 10000)
    ∧ (o ∈ (StreamlitApp.fetch_big_trades api fuel).2 → o < 10000) :=
  ⟨fun hm => AnalyzeBigTrades.fetchCeilLoop_offsets api 1000 fuel [] [] 0 o hm,
   fun hm => AnalyzeBigTrades.fetchCeilLoop_offsets api 1000 fuel [] [] 0 o hm,
   fun hm => StreamlitApp.fetchBigLoop_offsets api 500 fuel [] [] 0 o hm⟩

/-- Witness for C4: the first request of a ceiling fetcher is indeed below
the ceiling. -/
theorem offset_ceiling_bound_witness :
    0 ∈ (AnalyzeBigTrades.fetch_big_trades noApi 1).2 ∧ (0 : Nat) < 10000 :=
  ⟨by decide, (offset_ceiling_bound noApi 1 0).1 (by decide)⟩

/-- An API that always returns a full page of 500 records containing one
fresh hash, whatever the offset — fresh full pages forever. -/
def fullFreshApi : Nat → Option (List PM.Trade) := fun k => some (PM.fullFreshPage k)

set_option maxRecDepth 1000000 in
/-- Counterexample to C4 as stated for every fetcher:
`analyze_market.fetch_all_trades` has no offset ceiling, and on an API that
keeps returning full pages of fresh trades it issues a request at offset
10000. -/
theorem analyze_market_requests_at_offset_10000 :
    10000 ∈ (AnalyzeMarket.fetch_all_trades fullFreshApi 21).2 := by decide

lemma userStatsOf_wallet (resolves_to w : String) (ts : List PM.Trade) :
    (AnalyzeMarket.userStatsOf resolves_to w ts).wallet = w := rfl

lemma entryOf_wallet (resolves_to w : String) (ts : List PM.Trade) :
    (AnalyzeBigTrades.entryOf resolves_to w ts).wallet = w := rfl

lemma map_wallet_userStats (resolves_to : String) (trades : List PM.Trade)
    (ws : List String) :
    ((ws.map (fun w => AnalyzeMarket.userStatsOf resolves_to w
        (PM.tradesOf trades w))).map AnalyzeMarket.UserStats.wallet) = ws := by
  induction ws with
  | nil => rfl
  | cons w ws ih => simp only [List.map_cons, ih, userStatsOf_wallet]

lemma map_wallet_entry (resolves_to : String) (trades : List PM.Trade)
    (ws : List String) :
    ((ws.map (fun w => AnalyzeBigTrades.entryOf resolves_to w
        (PM.tradesOf trades w))).map AnalyzeBigTrades.LeaderboardEntry.wallet) = ws := by
  induction ws with
  | nil => rfl
  | cons w ws ih => simp only [List.map_cons, ih, entryOf_wallet]

/-- C5 (amended to the script aggregators): `analyze_trades` and the
big-trades `calculate_leaderboard` return exactly one entry per distinct
wallet (their wallet column is a permutation of the duplicate-free
first-encounter wallet list), sorted by pnl in descending order, and
entries of equal pnl keep the order in which their wallets were first
encountered (filtering the output at any pnl value gives the encounter-
ordered entry list filtered at that value). -/
theorem leaderboards_sorted_stable (trades : List PM.Trade) (resolves_to : String) :
    (PM.wallets trades).Nodup
    ∧ (((AnalyzeMarket.analyze_trades trades resolves_to).map
          AnalyzeMarket.UserStats.wallet).Perm (PM.wallets trades)
      ∧ (AnalyzeMarket.analyze_trades trades resolves_to).Pairwise
          (fun a b => b.pnl ≤ a.pnl)
      ∧ ∀ c : ℚ,
          (AnalyzeMarket.analyze_trades trades resolves_to).filter
              (fun u => decide (u.pnl = c))
            = ((PM.wallets trades).map
                (fun w => AnalyzeMarket.userStatsOf resolves_to w
                  (PM.tradesOf trades w))).filter (fun u => decide (u.pnl = c)))
    ∧ (((AnalyzeBigTrades.calculate_leaderboard trades resolves_to).map
          AnalyzeBigTrades.LeaderboardEntry.wallet).Perm (PM.wallets trades)
      ∧ (AnalyzeBigTrades.calculate_leaderboard trades resolves_to).Pairwise
          (fun a b => b.pnl ≤ a.pnl)
      ∧ ∀ c : ℚ,
          (AnalyzeBigTrades.calculate_leaderboard trades resolves_to).filter
              (fun e => decide (e.pnl = c))
            = ((PM.wallets trades).map
                (fun w => AnalyzeBigTrades.entryOf resolves_to w
                  (PM.tradesOf trades w))).filter (fun e => decide (e.pnl = c))) := by
  refine ⟨PM.wallets_nodup trades, ⟨?_, ?_, ?_⟩, ⟨?_, ?_, ?_⟩⟩
  · have h1 := (PM.sortDesc_perm (fun u : AnalyzeMarket.UserStats => u.pnl)
      ((PM.wallets trades).map
        (fun w => AnalyzeMarket.userStatsOf resolves_to w (PM.tradesOf trades w)))).map
      AnalyzeMarket.UserStats.wallet
    rw [map_wallet_userStats] at h1
    exact h1
  · exact PM.sortDesc_pairwise (fun u : AnalyzeMarket.UserStats => u.pnl) _
  · intro c
    exact PM.sortDesc_filter (fun u : AnalyzeMarket.UserStats => u.pnl) _ c
  · have h1 := (PM.sortDesc_perm (fun e : AnalyzeBigTrades.LeaderboardEntry => e.pnl)
      ((PM.wallets trades).map
        (fun w => AnalyzeBigTrades.entryOf resolves_to w (PM.tradesOf trades w)))).map
      AnalyzeBigTrades.LeaderboardEntry.wallet
    rw [map_wallet_entry] at h1
    exact h1
  · exact PM.sortDesc_pairwise (fun e : AnalyzeBigTrades.LeaderboardEntry => e.pnl) _
  · intro c
    exact PM.sortDesc_filter (fun e : AnalyzeBigTrades.LeaderboardEntry => e.pnl) _ c

/-- Wallet a buys 1 Yes share for 1.00 (pnl 0 if Yes). -/
def c5TradeA : PM.Trade :=
  { transactionHash := some ("h1"), proxyWallet := "a", side := "BUY", outcome := "Yes",
    size := 1, price := 1, timestamp := 0, name := none, pseudonym := none }

/-- Wallet b buys 2 Yes shares for 0.50 each (pnl 1 if Yes). -/
def c5TradeB : PM.Trade :=
  { transactionHash := some ("h2"), proxyWallet := "b", side := "BUY", outcome := "Yes",
    size := 2, price := 1/2, timestamp := 0, name := none, pseudonym := none }

/-- A trade list whose first-encountered wallet has the smaller pnl. -/
def c5Trades : List PM.Trade := [c5TradeA, c5TradeB]

/-- Counterexample to C5 as stated for every aggregator: the streamlit
`calculate_leaderboard` returns its rows in wallet first-encounter order —
here with pnl column (0, 1) — so its output is not sorted by descending
pnl. -/
theorem streamlit_leaderboard_not_sorted :
    ((StreamlitApp.calculate_leaderboard c5Trades ("Yes")).map
        (fun e : StreamlitApp.LeaderboardEntry => e.pnl)) = [0, 1]
    ∧ ¬ ((StreamlitApp.calculate_leaderboard c5Trades ("Yes")).Pairwise
        (fun a b => b.pnl ≤ a.pnl)) := by
  have hmap : ((StreamlitApp.calculate_leaderboard c5Trades ("Yes")).map
      (fun e : StreamlitApp.LeaderboardEntry => e.pnl)) = [0, 1] := by
    simp [StreamlitApp.calculate_leaderboard, StreamlitApp.entryOf,
      StreamlitApp.sAccOf, StreamlitApp.stepTradeS, StreamlitApp.SAcc.init,
      PM.wallets, PM.tradesOf, c5Trades, c5TradeA, c5TradeB]
    norm_num
  refine ⟨hmap, ?_⟩
  intro hp
  have h2 : (((StreamlitApp.calculate_leaderboard c5Trades ("Yes")).map
      (fun e : StreamlitApp.LeaderboardEntry => e.pnl)).Pairwise (fun x y => y ≤ x)) :=
    hp.map (fun e : StreamlitApp.LeaderboardEntry => e.pnl) (fun a b hab => hab)
  rw [hmap] at h2
  have h3 := (List.pairwise_cons.mp h2).1 1 (List.mem_singleton.mpr rfl)
  norm_num at h3
